import Mathlib

/-!
Verification of the type-signature parser of `grammers-tl-parser`
(`src/lib/grammers-tl-parser/src/tl/ty.rs`, `impl FromStr for Type`).

Strings are modelled as `List Char`; this is faithful because every
delimiter the parser inspects (`!`, `<`, `>`, `.`) is ASCII, so the Rust
byte-index slicing always lands on character boundaries and agrees with
character-list slicing.
-/

namespace Grammers

/-- Modelled from the spec: the error taxonomy of the parser is closed and
flat, exactly two kinds: `Empty` and `BadGeneric`.  (The Rust enum
`ParamParseError` lives in `crate::errors`, outside the provided sources;
`ty.rs` constructs exactly these two variants.) -/
inductive ParamParseError where
  | Empty
  | BadGeneric
deriving DecidableEq, Repr

/-- Rust struct `Type` from `ty.rs`: namespace components, final name,
bare/boxed flag, generic-reference flag, optional generic argument. -/
inductive Ty where
  | mk (ns : List (List Char)) (name : List Char) (bare : Bool)
      (genericRef : Bool) (genericArg : Option Ty)

/-- Field `namespace` of the Rust struct (`ns` avoids the Lean keyword). -/
def Ty.ns : Ty → List (List Char)
  | .mk v _ _ _ _ => v

/-- Field `name`. -/
def Ty.name : Ty → List Char
  | .mk _ v _ _ _ => v

/-- Field `bare`. -/
def Ty.bare : Ty → Bool
  | .mk _ _ v _ _ => v

/-- Field `generic_ref`. -/
def Ty.genericRef : Ty → Bool
  | .mk _ _ _ v _ => v

/-- Field `generic_arg` (the `Box` is immaterial in Lean). -/
def Ty.genericArg : Ty → Option Ty
  | .mk _ _ _ _ v => v

/-- Rust `char::is_ascii_lowercase`. -/
def isAsciiLowercase (c : Char) : Bool :=
  'a' ≤ c && c ≤ 'z'

/-- Rust `str::split('.')`: splits on every occurrence of `'.'`, keeping
empty fields; the empty string yields `[[]]`. -/
def splitDot : List Char → List (List Char)
  | [] => [[]]
  | c :: rest =>
    if c = '.' then [] :: splitDot rest
    else
      match splitDot rest with
      | [] => [[c]]      -- unreachable: `splitDot` never returns `[]`
      | f :: more => (c :: f) :: more

/-- First character of `name` is ASCII lowercase (Rust
`name.chars().next().unwrap().is_ascii_lowercase()`; the `[]` case is
unreachable on the success path since `name` is then non-empty). -/
def bareOf : List Char → Bool
  | [] => false
  | c :: _ => isAsciiLowercase c

/-- The dotted-path stage of `Type::from_str` (lines 49-66 of `ty.rs`):
split the head on `'.'`, reject any empty component with `Empty`, pop the
last component as `name`, derive `bare`, and build the struct. -/
def mkType (head : List Char) (genericRef : Bool) (genericArg : Option Ty) :
    Except ParamParseError Ty :=
  let comps := splitDot head
  if comps.any List.isEmpty then
    .error .Empty
  else
    match comps.getLast? with
    | some name => .ok (.mk comps.dropLast name (bareOf name) genericRef genericArg)
    | none => .error .Empty  -- unreachable: `splitDot` never returns `[]`

/-- Rust `ty.starts_with('!')`. -/
def startsBang (s : List Char) : Bool :=
  s.head? = some '!'

/-- Rust `if ty.starts_with('!') { &ty[1..] } else { ty }`. -/
def stripBang (s : List Char) : List Char :=
  if startsBang s then s.tail else s

/-- Rust `&ty[..pos]` where `pos = ty.find('<')`: everything before the
first `'<'`. -/
def genHead (ty : List Char) : List Char :=
  ty.takeWhile (fun c => c != '<')

/-- Rust `&ty[pos + 1..ty.len() - 1]` where `pos = ty.find('<')`:
everything strictly between the first `'<'` and the final character
(which the code has just checked to be `'>'`). -/
def genBody (ty : List Char) : List Char :=
  ((ty.dropWhile (fun c => c != '<')).tail).dropLast

/-- `Type::from_str` with explicit recursion fuel.  The Rust code recurses
on the generic-argument body, a strict substring; `parse` below supplies
`length + 1` fuel, and `parseFuel_irrel` proves any fuel above the input
length gives the same result, so the fuel is not observable.  Stage by
stage, mirroring `ty.rs`: strip a leading `'!'` (recording `generic_ref`);
if the remainder contains `'<'`, require a trailing `'>'` (else
`BadGeneric`), recurse on the body between the first `'<'` and the final
`'>'`, propagating any error unchanged; finally run the dotted-path stage
on the head. -/
def parseFuel : Nat → List Char → Except ParamParseError Ty
  | 0, _ => .error .Empty    -- out of fuel: unreachable for fuel > length
  | fuel + 1, s =>
    let ty := stripBang s
    if '<' ∈ ty then
      if ty.getLast? = some '>' then
        match parseFuel fuel (genBody ty) with
        | .ok g => mkType (genHead ty) (startsBang s) (some g)
        | .error e => .error e
      else .error .BadGeneric
    else
      mkType ty (startsBang s) none

/-- `Type::from_str`.  Fuel `length + 1` always suffices
(`parseFuel_irrel`), making this a total, executable function. -/
def parse (s : List Char) : Except ParamParseError Ty :=
  parseFuel (s.length + 1) s

/-- The recursive well-formedness invariant of a parsed `Ty`: the name is
non-empty, no namespace component is empty, and any nested generic
argument satisfies the same invariant. -/
def Ty.validB : Ty → Bool
  | .mk ns name _ _ none =>
      (!name.isEmpty) && ns.all (fun p => !p.isEmpty)
  | .mk ns name _ _ (some g) =>
      (!name.isEmpty) && ns.all (fun p => !p.isEmpty) && g.validB

/-! ### Basic lemmas about the splitting helpers -/

theorem splitDot_ne_nil (s : List Char) : splitDot s ≠ [] := by
  cases s with
  | nil => simp [splitDot]
  | cons c rest =>
    simp only [splitDot]
    split
    · simp
    · split <;> simp

theorem splitDot_not_mem {s : List Char} (h : '.' ∉ s) : splitDot s = [s] := by
  induction s with
  | nil => rfl
  | cons c rest ih =>
    have hc : ¬c = '.' := fun e => h (e ▸ List.mem_cons_self c rest)
    have hr : '.' ∉ rest := fun m => h (List.mem_cons_of_mem c m)
    simp only [splitDot, if_neg hc, ih hr]

theorem startsBang_nil : startsBang [] = false := rfl

theorem stripBang_nil : stripBang [] = [] := rfl

theorem stripBang_length_le (s : List Char) : (stripBang s).length ≤ s.length := by
  unfold stripBang
  split
  · rw [List.length_tail]; omega
  · exact le_refl _

theorem stripBang_subset {s : List Char} {c : Char} (h : c ∈ stripBang s) : c ∈ s := by
  unfold stripBang at h
  split at h
  · exact List.mem_of_mem_tail h
  · exact h

theorem genBody_length_lt {ty : List Char} (h : '<' ∈ ty) :
    (genBody ty).length < ty.length := by
  have h1 : (ty.dropWhile (fun c => c != '<')).length ≤ ty.length :=
    (List.dropWhile_sublist _).length_le
  have h2 : ty ≠ [] := by rintro rfl; simp at h
  have h3 : 0 < ty.length := List.length_pos.mpr h2
  unfold genBody
  rw [List.length_dropLast, List.length_tail]
  omega

theorem genBody_stripBang_length_lt {s : List Char} (h : '<' ∈ stripBang s) :
    (genBody (stripBang s)).length < s.length :=
  lt_of_lt_of_le (genBody_length_lt h) (stripBang_length_le s)

/-! ### The fuel is not observable -/

theorem parseFuel_eq2 :
    ∀ (n f1 f2 : Nat) (s : List Char), f1 ≤ n → s.length < f1 → s.length < f2 →
      parseFuel f1 s = parseFuel f2 s := by
  intro n
  induction n with
  | zero => intro f1 f2 s hn h1 h2; omega
  | succ n ih =>
    intro f1 f2 s hn h1 h2
    match f1, f2, h1, h2 with
    | a + 1, b + 1, h1, h2 =>
      simp only [parseFuel]
      by_cases hm : '<' ∈ stripBang s
      · rw [if_pos hm, if_pos hm]
        have hb : (genBody (stripBang s)).length < s.length :=
          genBody_stripBang_length_lt hm
        rw [ih a b (genBody (stripBang s)) (by omega) (by omega) (by omega)]
      · rw [if_neg hm, if_neg hm]

theorem parseFuel_irrel (fuel : Nat) (s : List Char) (h : s.length < fuel) :
    parseFuel fuel s = parse s :=
  parseFuel_eq2 fuel fuel (s.length + 1) s le_rfl h (Nat.lt_succ_self _)

/-! ### One-step characterizations of `parse`, by branch -/

theorem parse_no_lt (s : List Char) (h : '<' ∉ stripBang s) :
    parse s = mkType (stripBang s) (startsBang s) none := by
  unfold parse
  simp only [parseFuel]
  rw [if_neg h]

theorem parse_bad (s : List Char) (h1 : '<' ∈ stripBang s)
    (h2 : ¬(stripBang s).getLast? = some '>') :
    parse s = .error .BadGeneric := by
  unfold parse
  simp only [parseFuel]
  rw [if_pos h1, if_neg h2]

theorem parse_lt_ok (s : List Char) (g : Ty) (h1 : '<' ∈ stripBang s)
    (h2 : (stripBang s).getLast? = some '>')
    (hg : parse (genBody (stripBang s)) = .ok g) :
    parse s = mkType (genHead (stripBang s)) (startsBang s) (some g) := by
  unfold parse
  simp only [parseFuel]
  rw [if_pos h1, if_pos h2,
    parseFuel_irrel s.length _ (genBody_stripBang_length_lt h1), hg]

theorem parse_lt_err (s : List Char) (e : ParamParseError) (h1 : '<' ∈ stripBang s)
    (h2 : (stripBang s).getLast? = some '>')
    (hg : parse (genBody (stripBang s)) = .error e) :
    parse s = .error e := by
  unfold parse
  simp only [parseFuel]
  rw [if_pos h1, if_pos h2,
    parseFuel_irrel s.length _ (genBody_stripBang_length_lt h1), hg]

/-! ### Characterization of the dotted-path stage -/

theorem mem_of_getLast?_eq {α : Type} {l : List α} {a : α}
    (h : l.getLast? = some a) : a ∈ l := by
  obtain ⟨ys, rfl⟩ := List.getLast?_eq_some_iff.mp h
  simp

theorem mkType_ok {head : List Char} {gr : Bool} {arg : Option Ty} {t : Ty}
    (h : mkType head gr arg = .ok t) :
    ∃ name, (splitDot head).getLast? = some name ∧
      (splitDot head).any List.isEmpty = false ∧
      t = .mk (splitDot head).dropLast name (bareOf name) gr arg := by
  unfold mkType at h
  by_cases ha : (splitDot head).any List.isEmpty
  · rw [if_pos ha] at h; cases h
  · rw [if_neg ha] at h
    cases hL : (splitDot head).getLast? with
    | none => rw [hL] at h; cases h
    | some name =>
      rw [hL] at h
      injection h with h
      exact ⟨name, rfl, Bool.eq_false_iff.mpr ha, h.symm⟩

theorem mkType_swap {head : List Char} {gr : Bool} {arg : Option Ty} {t : Ty}
    (h : mkType head gr arg = .ok t) (gr' : Bool) (arg' : Option Ty) :
    mkType head gr' arg' = .ok (.mk t.ns t.name t.bare gr' arg') := by
  obtain ⟨name, hL, ha, rfl⟩ := mkType_ok h
  unfold mkType
  rw [if_neg (by simp [ha]), hL]
  rfl

theorem mkType_ne_badGeneric (head : List Char) (gr : Bool) (arg : Option Ty) :
    mkType head gr arg ≠ .error .BadGeneric := by
  unfold mkType
  by_cases ha : (splitDot head).any List.isEmpty
  · rw [if_pos ha]; simp
  · rw [if_neg ha]
    cases (splitDot head).getLast? <;> simp

theorem mkType_any_empty {head : List Char} (gr : Bool) (arg : Option Ty)
    (h : (splitDot head).any List.isEmpty = true) :
    mkType head gr arg = .error .Empty := by
  unfold mkType
  rw [if_pos h]

/-! ### Every success is produced by the dotted-path stage -/

theorem parse_ok_mkType {s : List Char} {t : Ty} (h : parse s = .ok t) :
    ∃ head arg, mkType head (startsBang s) arg = .ok t := by
  by_cases hm : '<' ∈ stripBang s
  · by_cases hg : (stripBang s).getLast? = some '>'
    · cases hE : parse (genBody (stripBang s)) with
      | ok g =>
        rw [parse_lt_ok s g hm hg hE] at h
        exact ⟨_, _, h⟩
      | error e => rw [parse_lt_err s e hm hg hE] at h; cases h
    · rw [parse_bad s hm hg] at h; cases h
  · rw [parse_no_lt s hm] at h
    exact ⟨_, _, h⟩

/-! ### Decomposition of an appended generic application -/

theorem startsBang_append {h : List Char} (hne : h ≠ []) (r : List Char) :
    startsBang (h ++ r) = startsBang h := by
  unfold startsBang
  rw [List.head?_append_of_ne_nil _ hne]

theorem stripBang_append {h : List Char} (hne : h ≠ []) (r : List Char) :
    stripBang (h ++ r) = stripBang h ++ r := by
  by_cases hb : startsBang h
  · simp [stripBang, startsBang_append hne, hb, List.tail_append_of_ne_nil hne]
  · simp [stripBang, startsBang_append hne, hb]

theorem genHead_append {A r : List Char} (h : '<' ∉ A) :
    genHead (A ++ '<' :: r) = A := by
  induction A with
  | nil => simp [genHead, List.takeWhile_cons]
  | cons c t ih =>
    have hc : c ≠ '<' := by rintro rfl; exact h (by simp)
    have ht : '<' ∉ t := fun m => h (by simp [m])
    simpa [genHead, List.takeWhile_cons, hc] using ih ht

theorem dropWhile_append_lt {A r : List Char} (h : '<' ∉ A) :
    (A ++ '<' :: r).dropWhile (fun c => c != '<') = '<' :: r := by
  induction A with
  | nil => simp [List.dropWhile_cons]
  | cons c t ih =>
    have hc : c ≠ '<' := by rintro rfl; exact h (by simp)
    have ht : '<' ∉ t := fun m => h (by simp [m])
    simpa [List.dropWhile_cons, hc] using ih ht

theorem genBody_append {A b : List Char} (h : '<' ∉ A) :
    genBody (A ++ '<' :: (b ++ ['>'])) = b := by
  unfold genBody
  rw [dropWhile_append_lt h]
  simp [List.dropLast_concat]

theorem getLast?_append_gt (A b : List Char) :
    (A ++ '<' :: (b ++ ['>'])).getLast? = some '>' := by
  have he : A ++ '<' :: (b ++ ['>']) = (A ++ '<' :: b) ++ ['>'] := by simp
  rw [he, List.getLast?_concat]

theorem mem_append_lt (A r : List Char) : '<' ∈ A ++ '<' :: r := by simp

/-- The central decomposition: appending `<body>` to a `<`-free head makes
the parser recurse on exactly `body`, propagate its error, or install its
result as the generic argument of the head's parse. -/
theorem parse_append (h b : List Char) (hlt : '<' ∉ h) :
    parse (h ++ '<' :: (b ++ ['>'])) =
      match parse b with
      | .ok g => mkType (stripBang h) (startsBang h) (some g)
      | .error e => .error e := by
  have hslt : '<' ∉ stripBang h := fun m => hlt (stripBang_subset m)
  have h1 : stripBang (h ++ '<' :: (b ++ ['>'])) = stripBang h ++ '<' :: (b ++ ['>']) := by
    cases h with
    | nil => simp [stripBang, startsBang]
    | cons c t => exact stripBang_append (by simp) _
  have h6 : startsBang (h ++ '<' :: (b ++ ['>'])) = startsBang h := by
    cases h with
    | nil => simp [startsBang]
    | cons c t => exact startsBang_append (by simp) _
  have h2 : '<' ∈ stripBang (h ++ '<' :: (b ++ ['>'])) := by
    rw [h1]; exact mem_append_lt _ _
  have h3 : (stripBang (h ++ '<' :: (b ++ ['>']))).getLast? = some '>' := by
    rw [h1]; exact getLast?_append_gt _ _
  have h4 : genBody (stripBang (h ++ '<' :: (b ++ ['>']))) = b := by
    rw [h1]; exact genBody_append hslt
  have h5 : genHead (stripBang (h ++ '<' :: (b ++ ['>']))) = stripBang h := by
    rw [h1]; exact genHead_append hslt
  cases hE : parse b with
  | ok g =>
    rw [parse_lt_ok _ g h2 h3 (by rw [h4]; exact hE), h5, h6]
  | error e =>
    rw [parse_lt_err _ e h2 h3 (by rw [h4]; exact hE)]

/-! ### Invariants of successful parses -/

theorem parse_nil : parse [] = .error .Empty := rfl

theorem mkType_validB {head : List Char} {gr : Bool} {arg : Option Ty} {t : Ty}
    (h : mkType head gr arg = .ok t)
    (harg : ∀ g, arg = some g → g.validB = true) : t.validB = true := by
  obtain ⟨name, hL, ha, rfl⟩ := mkType_ok h
  have hmem : ∀ p ∈ splitDot head, p.isEmpty = false := by
    intro p hp
    by_contra hc
    have : (splitDot head).any List.isEmpty = true :=
      List.any_eq_true.mpr ⟨p, hp, Bool.not_eq_false _ ▸ hc⟩
    rw [this] at ha
    cases ha
  have hname : name.isEmpty = false := hmem name (mem_of_getLast?_eq hL)
  have hns : ∀ p ∈ (splitDot head).dropLast, p.isEmpty = false := fun p hp =>
    hmem p ((List.dropLast_sublist _).mem hp)
  cases arg with
  | none =>
    simp only [Ty.validB, hname, Bool.not_false, Bool.true_and, List.all_eq_true]
    intro p hp
    rw [hns p hp]
    rfl
  | some g =>
    have hg := harg g rfl
    simp only [Ty.validB, hname, hg, Bool.not_false, Bool.true_and, Bool.and_true,
      List.all_eq_true]
    intro p hp
    rw [hns p hp]
    rfl

theorem parse_ok_validB_bounded (n : Nat) :
    ∀ (s : List Char), s.length ≤ n → ∀ t, parse s = .ok t → t.validB = true := by
  induction n with
  | zero =>
    intro s hle t ht
    have : s = [] := List.length_eq_zero.mp (Nat.le_zero.mp hle)
    rw [this, parse_nil] at ht
    cases ht
  | succ n ih =>
    intro s hle t ht
    by_cases hm : '<' ∈ stripBang s
    · by_cases hg : (stripBang s).getLast? = some '>'
      · cases hE : parse (genBody (stripBang s)) with
        | ok g =>
          rw [parse_lt_ok s g hm hg hE] at ht
          refine mkType_validB ht ?_
          intro g' hg'
          injection hg' with hg'
          subst hg'
          have hlt : (genBody (stripBang s)).length < s.length :=
            genBody_stripBang_length_lt hm
          exact ih (genBody (stripBang s)) (by omega) _ hE
        | error e => rw [parse_lt_err s e hm hg hE] at ht; cases ht
      · rw [parse_bad s hm hg] at ht; cases ht
    · rw [parse_no_lt s hm] at ht
      exact mkType_validB ht (by intro g hgg; cases hgg)

theorem parse_ok_bare {s : List Char} {t : Ty} (h : parse s = .ok t) :
    t.bare = bareOf t.name := by
  obtain ⟨head, arg, hmk⟩ := parse_ok_mkType h
  obtain ⟨name, hL, ha, rfl⟩ := mkType_ok hmk
  rfl

theorem parse_ok_genericRef {s : List Char} {t : Ty} (h : parse s = .ok t) :
    t.genericRef = startsBang s := by
  obtain ⟨head, arg, hmk⟩ := parse_ok_mkType h
  obtain ⟨name, hL, ha, rfl⟩ := mkType_ok hmk
  rfl

/-! ### The claims -/

/-- C1: for every non-empty string `s` containing none of `'.'`, `'<'`,
`'>'`, `'!'`, `parse s` succeeds with empty namespace, name `s`, no
generic argument, `generic_ref = false`, and `bare` equal to whether the
first character of `s` is an ASCII lowercase letter. -/
theorem c1_parse_plain (s : List Char) (hne : s ≠ []) (hdot : '.' ∉ s)
    (hlt : '<' ∉ s) (hgt : '>' ∉ s) (hbang : '!' ∉ s) :
    parse s = .ok (.mk [] s (bareOf s) false none) := by
  have h0 : startsBang s = false := by
    unfold startsBang
    cases s with
    | nil => rfl
    | cons c t =>
      simp only [List.head?_cons, Option.some.injEq, decide_eq_false_iff_not]
      rintro rfl
      exact hbang (by simp)
  have h1 : stripBang s = s := by simp [stripBang, h0]
  rw [parse_no_lt s (h1.symm ▸ hlt), h1, h0]
  unfold mkType
  rw [splitDot_not_mem hdot]
  have hse : s.isEmpty = false := by
    cases s with
    | nil => exact absurd rfl hne
    | cons c t => rfl
  rw [if_neg (by simp [hse])]
  rfl

theorem c1_witness :
    parse "foo".toList = .ok (.mk [] "foo".toList (bareOf "foo".toList) false none) :=
  c1_parse_plain "foo".toList (by decide) (by decide) (by decide) (by decide) (by decide)

/-- C2: generic application composes with the recursive parse.  If `h`
has no `'<'`, `parse h = .ok t` and `parse b = .ok g`, then `t` has no
generic argument and `parse (h ++ "<" ++ b ++ ">")` succeeds with the
same namespace, name, bareness and generic-reference flag as `t` and
generic argument `some g`; nesting depth greater than one follows by
instantiating `b` with a string that itself contains a generic
application (see the witness). -/
theorem c2_parse_generic_compose (h b : List Char) (t g : Ty) (hlt : '<' ∉ h)
    (hh : parse h = .ok t) (hb : parse b = .ok g) :
    t.genericArg = none ∧
    parse (h ++ '<' :: (b ++ ['>'])) =
      .ok (.mk t.ns t.name t.bare t.genericRef (some g)) := by
  have hslt : '<' ∉ stripBang h := fun m => hlt (stripBang_subset m)
  have hh' : mkType (stripBang h) (startsBang h) none = .ok t := by
    rw [← parse_no_lt h hslt]; exact hh
  obtain ⟨name, hL, ha, ht⟩ := mkType_ok hh'
  have harg : t.genericArg = none := by rw [ht]; rfl
  have hgr : t.genericRef = startsBang h := by rw [ht]; rfl
  refine ⟨harg, ?_⟩
  rw [parse_append h b hlt, hb, hgr]
  exact mkType_swap hh' _ _

theorem c2_witness :
    parse "foo<bar<baz>>".toList =
      .ok (.mk [] "foo".toList true false
        (some (.mk [] "bar".toList true false
          (some (.mk [] "baz".toList true false none))))) :=
  (c2_parse_generic_compose "foo".toList "bar<baz>".toList
    (.mk [] "foo".toList true false none)
    (.mk [] "bar".toList true false (some (.mk [] "baz".toList true false none)))
    (by decide) rfl rfl).2

/-- C3: `parse` fails with `Empty` exactly on empty dotted-path
components: `parse "" = .error .Empty`, and every input whose
post-`'!'`-stripping remainder has no `'<'` and splits on `'.'` with at
least one empty component (lone dot, leading dot, trailing dot, doubled
dot, ...) parses to `.error .Empty`. -/
theorem c3_parse_empty :
    parse [] = .error .Empty ∧
    ∀ s : List Char, '<' ∉ stripBang s →
      (splitDot (stripBang s)).any List.isEmpty = true →
      parse s = .error .Empty := by
  refine ⟨parse_nil, ?_⟩
  intro s h1 h2
  rw [parse_no_lt s h1]
  exact mkType_any_empty _ _ h2

theorem c3_witness : parse ".foo.".toList = .error .Empty :=
  c3_parse_empty.2 ".foo.".toList (by decide) (by decide)

/-- C4: whenever the input, after stripping an optional leading `'!'`,
contains a `'<'` but does not end with `'>'`, `parse` fails with
`BadGeneric` — for any head whatsoever, i.e. before any dotted-path
processing. -/
theorem c4_parse_badGeneric (s : List Char) (h1 : '<' ∈ stripBang s)
    (h2 : (stripBang s).getLast? ≠ some '>') :
    parse s = .error .BadGeneric :=
  parse_bad s h1 h2

theorem c4_witness : parse "foo<bar".toList = .error .BadGeneric :=
  c4_parse_badGeneric "foo<bar".toList (by decide) (by decide)

/-- C5: errors of the recursive generic-argument parse propagate
unchanged: for `h` without `'<'`, if `parse b = .error e` then
`parse (h ++ "<" ++ b ++ ">") = .error e`, whatever the kind of `e`. -/
theorem c5_parse_error_propagates (h b : List Char) (e : ParamParseError)
    (hlt : '<' ∉ h) (hb : parse b = .error e) :
    parse (h ++ '<' :: (b ++ ['>'])) = .error e := by
  rw [parse_append h b hlt, hb]

theorem c5_witness : parse "foo<x<y>".toList = .error .BadGeneric :=
  c5_parse_error_propagates "foo".toList "x<y".toList .BadGeneric (by decide) rfl

/-- C6: every successfully parsed `Ty` satisfies, recursively through
`generic_arg`, the invariant that `name` is non-empty and `namespace`
contains no empty component. -/
theorem c6_parse_valid (s : List Char) (t : Ty) (h : parse s = .ok t) :
    t.validB = true :=
  parse_ok_validB_bounded s.length s le_rfl t h

theorem c6_witness :
    (Ty.mk [] "foo".toList true false
      (some (.mk ["bar".toList] "Baz".toList false false none))).validB = true :=
  c6_parse_valid "foo<bar.Baz>".toList _ rfl

/-- C7: for every successful parse, `bare` is true iff the first
character of the resulting `name` is an ASCII lowercase letter,
determined purely by `name` (uppercase, digit, underscore or non-ASCII
first characters give `bare = false` via `bareOf`). -/
theorem c7_parse_bare (s : List Char) (t : Ty) (h : parse s = .ok t) :
    t.bare = bareOf t.name :=
  parse_ok_bare h

theorem c7_witness :
    (Ty.mk ["Foo".toList] "bar".toList true false none).bare =
      bareOf (Ty.mk ["Foo".toList] "bar".toList true false none).name :=
  c7_parse_bare "Foo.bar".toList _ rfl

/-- C8: for every successful parse, `generic_ref` is true iff the input
began with `'!'`; the flag is independent of the generic argument (the
witness instantiates `"!X<int>"`, which carries both). -/
theorem c8_parse_genericRef (s : List Char) (t : Ty) (h : parse s = .ok t) :
    (t.genericRef = true ↔ s.head? = some '!') := by
  rw [parse_ok_genericRef h]
  simp [startsBang]

theorem c8_witness :
    ((Ty.mk [] "X".toList false true
        (some (.mk [] "int".toList true false none))).genericRef = true ↔
      ("!X<int>".toList).head? = some '!') :=
  c8_parse_genericRef "!X<int>".toList _ rfl

/-- C9: `parse` terminates on every finite input: the recursive call
receives a strictly shorter string, so recursion depth is bounded by the
input length — any fuel above the length yields the same (total)
function. -/
theorem c9_parse_fuel_bound (s : List Char) (fuel : Nat) (h : s.length < fuel) :
    parseFuel fuel s = parse s :=
  parseFuel_irrel fuel s h

theorem c9_witness :
    parseFuel 100 "foo<bar<baz>>".toList = parse "foo<bar<baz>>".toList :=
  c9_parse_fuel_bound "foo<bar<baz>>".toList 100 (by decide)

/-- C10: a stray `'>'` never triggers `BadGeneric`: if the
post-`'!'`-stripping remainder has no `'<'`, `parse` never returns
`BadGeneric`, and `'>'` is an ordinary name character — `">"` parses to
name `">"` (boxed) and `"foo>"` to name `"foo>"`. -/
theorem c10_gt_ordinary :
    (∀ s : List Char, '<' ∉ stripBang s → parse s ≠ .error .BadGeneric) ∧
    parse ">".toList = .ok (.mk [] ">".toList false false none) ∧
    parse "foo>".toList = .ok (.mk [] "foo>".toList true false none) := by
  refine ⟨?_, rfl, rfl⟩
  intro s h1
  rw [parse_no_lt s h1]
  exact mkType_ne_badGeneric _ _ _

theorem c10_witness : parse "a>b".toList ≠ .error .BadGeneric :=
  c10_gt_ordinary.1 "a>b".toList (by decide)

end Grammers
